import Mathlib

/-!
Verification of the dynamic-batching parameter protocol of
`src/bentoml/_internal/runner/utils.py`.

The Python module is shallowly embedded:

* `Params T` mirrors the `Params` class: `args` is the positional tuple and
  `kwargs` the keyword dictionary, modelled as an insertion-ordered
  association list with unique keys (the Python `dict` invariant).
* Fallible Python operations return `Except PyError _`; the constructors of
  `PyError` name the Python exception classes that the module can raise.
* Python's unbounded `int` is `Int`; byte strings are `List Nat`.
* `Params.iter` is a generator; it is embedded step-indexed: `Params.iter p n`
  is what the generator's `n`-th round does (yield a row, stop cleanly via
  the caught `StopIteration` from the kwargs dict comprehension, or die with
  `RuntimeError` when an args iterator is exhausted inside the
  `tuple(next(a) for a in ...)` generator expression, per PEP 479).
* The JSON codec applied to `Payload.meta` (`json.dumps` on encode,
  `json.loads` on decode) and the multipart framing are external library
  collaborators; they are modelled as faithful: a wire `WirePart` carries the
  meta value of type `μ` directly, together with the part name, body bytes
  and content-type string that the module itself computes.
-/

/-- Exceptions the embedded module can raise. -/
inductive PyError where
  | stopIteration
  | runtimeError
  | invalidArgument
  | keyError
  | indexError
deriving DecidableEq, Repr

/-- The `Params` container: a positional tuple plus a keyword dictionary
(insertion-ordered association list, keys unique by the `dict` invariant). -/
structure Params (T : Type) where
  args : List T
  kwargs : List (String × T)
deriving DecidableEq, Repr

/-- Sequence a list of fallible lookups, propagating the first failure: the
shape of every Python `for`/comprehension loop in the module whose body can
raise. -/
def optionMapM {α β : Type} (f : α → Option β) : List α → Option (List β)
  | [] => some []
  | a :: t =>
    match f a with
    | none => none
    | some b =>
      match optionMapM f t with
      | none => none
      | some bs => some (b :: bs)

/-- Dictionary lookup `d[k]` on an association list, `none` on `KeyError`. -/
def dictGet? {K V : Type} [DecidableEq K] (d : List (K × V)) (k : K) : Option V :=
  (d.find? (fun kv => kv.1 = k)).map (fun kv => kv.2)

/-- Dictionary assignment `d[k] = v`: replace in place when the key exists
(keeping its position, as Python dicts do), else append. -/
def dictSet {K V : Type} [DecidableEq K] (d : List (K × V)) (k : K) (v : V) :
    List (K × V) :=
  if d.any (fun kv => kv.1 = k) then
    d.map (fun kv => if kv.1 = k then (k, v) else kv)
  else
    d ++ [(k, v)]

namespace Params

variable {T To : Type}

/-- `Params.items`: `itertools.chain(enumerate(self.args), self.kwargs.items())`,
positional slots first in index order, then named slots in stored order. -/
def items (p : Params T) : List ((Nat ⊕ String) × T) :=
  p.args.enum.map (fun iv => (Sum.inl iv.1, iv.2))
    ++ p.kwargs.map (fun kv => (Sum.inr kv.1, kv.2))

/-- `Params.map`: apply a function to every value, preserving addressing. -/
def map (f : T → To) (p : Params T) : Params To :=
  ⟨p.args.map f, p.kwargs.map (fun kv => (kv.1, f kv.2))⟩

/-- `Params.all_equal`: `next` on the item iterator raises `StopIteration`
on an empty container; otherwise every value is compared to the first. -/
def all_equal [DecidableEq T] (p : Params T) : Except PyError Bool :=
  match p.items with
  | [] => .error .stopIteration
  | (_, first) :: rest => .ok (rest.all (fun kv => kv.2 = first))

/-- `Params.sample`: first positional value, else first keyword value, else
the `StopIteration` from `next(iter(self.kwargs.values()))`. -/
def sample (p : Params T) : Except PyError T :=
  match p.args with
  | a :: _ => .ok a
  | [] =>
    match p.kwargs with
    | kv :: _ => .ok kv.2
    | [] => .error .stopIteration

/-- Integer-or-string dictionary keys for `Params.from_dict`. -/
abbrev PyKey := Int ⊕ String

/-- The integer keys of the mapping, in insertion order. -/
def intKeys (data : List (PyKey × T)) : List Int :=
  data.filterMap (fun kv => kv.1.getLeft?)

/-- Lookup of an integer key in the mapping. -/
def dictGetI? (data : List (PyKey × T)) (k : Int) : Option T :=
  dictGet? data (Sum.inl k)

/-- The string-keyed entries of the mapping, in insertion order. -/
def strEntries (data : List (PyKey × T)) : List (String × T) :=
  data.filterMap (fun kv =>
    match kv.1 with
    | Sum.inl _ => none
    | Sum.inr s => some (s, kv.2))

/-- `Params.from_dict`: positional slots are the values of the integer keys
in sorted key order (`sorted` embedded as an insertion sort), named slots the
string-keyed entries.  The `data[k]` lookups are the only fallible step. -/
def from_dict (data : List (PyKey × T)) : Option (Params T) :=
  (optionMapM (fun k => dictGetI? data k)
      (List.insertionSort (fun a b => a ≤ b) (intKeys data))).map
    (fun args => ⟨args, strEntries data⟩)

/-- Result of one round of the `Params.iter` generator. -/
inductive IterStep (γ : Type) where
  | yieldRow : Params γ → IterStep γ
  | stop
  | error
deriving DecidableEq, Repr

/-- `Params.iter`, step-indexed: round `n` first advances every positional
iterator inside a generator expression (an exhausted one raises
`StopIteration` there, which PEP 479 turns into `RuntimeError`), then every
keyword iterator inside a dict comprehension (an exhausted one raises
`StopIteration`, caught by the generator's handler: clean stop), and
otherwise yields the row of `n`-th elements. -/
def iter (p : Params (List T)) (n : Nat) : IterStep T :=
  match optionMapM (fun l => l[n]?) p.args with
  | none => .error
  | some as =>
    match optionMapM (fun kv => (kv.2[n]?).map (fun v => (kv.1, v))) p.kwargs with
    | none => .stop
    | some ks => .yieldRow ⟨as, ks⟩

/-- `next(g)` on the step-indexed generator: a clean stop surfaces as
`StopIteration` to the caller, a dead generator as `RuntimeError`. -/
def genNext (p : Params (List T)) (n : Nat) : Except PyError (Params T) :=
  match iter p n with
  | .yieldRow q => .ok q
  | .stop => .error .stopIteration
  | .error => .error .runtimeError

/-- The ordered values of one positional slot across a list of containers
(`params.args[i]`, `none` on `IndexError`). -/
def argColumn (paramss : List (Params T)) (i : Nat) : Option (List T) :=
  optionMapM (fun p => p.args[i]?) paramss

/-- The ordered values of one named slot across a list of containers
(`params.kwargs[k]`, `none` on `KeyError`). -/
def kwColumn (paramss : List (Params T)) (k : String) : Option (List T) :=
  optionMapM (fun p => dictGet? p.kwargs k) paramss

/-- `Params.agg`: empty input gives the empty container; otherwise the first
container's addressing drives per-slot column collection (positional columns
first, raising `IndexError` on a short container, then keyword columns,
raising `KeyError` on a missing key) and `agg_func` is applied to each
column.  The Lean `List T` column is Python's materialized `tuple`. -/
def agg (paramss : List (Params T)) (f : List T → To) : Except PyError (Params To) :=
  match paramss with
  | [] => .ok ⟨[], []⟩
  | p0 :: _ =>
    match optionMapM (fun i => (argColumn paramss i).map f)
        (List.range p0.args.length) with
    | none => .error .indexError
    | some aggArgs =>
      match optionMapM
          (fun kv => (kwColumn paramss kv.1).map (fun col => (kv.1, f col)))
          p0.kwargs with
      | none => .error .keyError
      | some aggKwargs => .ok ⟨aggArgs, aggKwargs⟩

end Params

/-- Python values, as far as the default aggregation path observes them:
base values and tuples. -/
inductive PyVal where
  | int : Int → PyVal
  | tuple : List PyVal → PyVal

/-- `pass_through`: the identity default `agg_func`. -/
def pass_through (i : PyVal) : PyVal := i

/-- `Params.agg` with the default `agg_func=pass_through`, at the dynamic
value type: `agg` materializes each slot column as a tuple and
`pass_through` returns that tuple unchanged. -/
def aggDefault (paramss : List (Params PyVal)) : Except PyError (Params PyVal) :=
  Params.agg paramss (fun col => pass_through (PyVal.tuple col))

/-- The `Payload` unit: body bytes, JSON-serializable metadata (its value
type `μ` is abstract here, the JSON codec being a faithful external
collaborator), and the container-format tag. -/
structure Payload (μ : Type) where
  data : List Nat
  meta : μ
  container : String
deriving DecidableEq, Repr

/-- One part of a multipart wire message: the form-data field name, the body
bytes, the `Bento-Payload-Meta` header's JSON value, and the `Content-Type`
header string. -/
structure WirePart (μ : Type) where
  name : String
  body : List Nat
  metaHeader : μ
  contentType : String
deriving DecidableEq, Repr

/-- A slot address rendered as a part name (`str(key)` via the f-string in
the `Content-Disposition` header). -/
def keyStr : Nat ⊕ String → String
  | Sum.inl i => toString i
  | Sum.inr s => s

/-- `payload_params_to_multipart`: one part per `items()` entry, named by the
stringified slot address, carrying the payload bytes, the JSON meta header
and a content type of `application/vnd.bentoml.` followed by the tag. -/
def payload_params_to_multipart {μ : Type} (params : Params (Payload μ)) :
    List (WirePart μ) :=
  params.items.map (fun kv =>
    ⟨keyStr kv.1, kv.2.data, kv.2.meta,
      "application/vnd.bentoml." ++ kv.2.container⟩)

/-- Python `str.strip(chars)`: remove from both ends every character that is
a member of `chars` (a character SET, not a required substring). -/
def pyStrip (chars s : String) : String :=
  String.mk
    (((s.data.dropWhile (fun c => chars.data.contains c)).reverse.dropWhile
        (fun c => chars.data.contains c)).reverse)

/-- Python `str.isdigit` restricted to ASCII part names: non-empty and all
decimal digits. -/
def pyIsDigit (s : String) : Bool :=
  !s.isEmpty && s.data.all Char.isDigit

/-- `int(s)` for an all-digit string. -/
def digitsToNat (s : String) : Nat :=
  s.data.foldl (fun n c => n * 10 + (c.toNat - 48)) 0

/-- The `Payload(...)` built from one decoded part: body bytes, JSON-decoded
meta header, and the content type put through
`.strip("application/vnd.bentoml.")`. -/
def payloadOfPart {μ : Type} (pt : WirePart μ) : Payload μ :=
  ⟨pt.body, pt.metaHeader, pyStrip "application/vnd.bentoml." pt.contentType⟩

/-- The `args_map` dict after the decode loop: every all-digit-named part
assigned under its parsed index, later parts overwriting earlier ones. -/
def argsMapOf {μ : Type} (parts : List (WirePart μ)) : List (Nat × Payload μ) :=
  parts.foldl
    (fun m pt =>
      if pyIsDigit pt.name then dictSet m (digitsToNat pt.name) (payloadOfPart pt)
      else m)
    []

/-- The `kwargs` dict after the decode loop: every other part assigned under
its field name. -/
def kwargsOf {μ : Type} (parts : List (WirePart μ)) : List (String × Payload μ) :=
  parts.foldl
    (fun m pt =>
      if pyIsDigit pt.name then m else dictSet m pt.name (payloadOfPart pt))
    []

/-- The running `max_arg_index`, starting at `-1`. -/
def maxArgIndex {μ : Type} (parts : List (WirePart μ)) : Int :=
  parts.foldl
    (fun mx pt =>
      if pyIsDigit pt.name then max mx ((digitsToNat pt.name : Int)) else mx)
    (-1)

/-- `multipart_to_payload_params` on the parsed parts of the request: digit
-named parts populate `args_map` and raise the maximum index, the rest
populate `kwargs`; the positional tuple is `args_map[i] for i in
range(max_arg_index + 1)`, whose lookup raises `KeyError` on a gap. -/
def multipart_to_payload_params {μ : Type} (parts : List (WirePart μ)) :
    Except PyError (Params (Payload μ)) :=
  match optionMapM (fun i => dictGet? (argsMapOf parts) i)
      (List.range (maxArgIndex parts + 1).toNat) with
  | none => .error .keyError
  | some args => .ok ⟨args, kwargsOf parts⟩

/-- `payload_paramss_to_batch_params`.  The external batching capability
`AutoContainer.from_batch_payloads(·, batch_dim)` is abstracted as `f`
(modelled from the spec: it returns a batched value and an index list).  Its
2-tuple result is a Python sequence, rendered for `Params.iter` as the
two-element list `[inl batched, inr indices]`.  The two `next` calls pull
rounds 0 and 1 of the generator, then `all_equal` validates the index lists
and `sample` picks the representative. -/
def payload_paramss_to_batch_params {μ β : Type} [DecidableEq β]
    (f : List (Payload μ) → β × List Int)
    (paramss : List (Params (Payload μ))) :
    Except PyError (Params (β ⊕ List Int) × (β ⊕ List Int)) :=
  match Params.agg paramss
      (fun col => [Sum.inl (f col).1, Sum.inr (f col).2]) with
  | .error e => .error e
  | .ok cps =>
    match Params.genNext cps 0 with
    | .error e => .error e
    | .ok batched =>
      match Params.genNext cps 1 with
      | .error e => .error e
      | .ok indice =>
        match Params.all_equal indice with
        | .error e => .error e
        | .ok false => .error .invalidArgument
        | .ok true =>
          match Params.sample indice with
          | .error e => .error e
          | .ok s => .ok (batched, s)


/-! ### Helper lemmas about `optionMapM` and association lists -/

theorem optionMapM_eq_some {α β : Type} {f : α → Option β} :
    ∀ {l : List α} {ys : List β},
      optionMapM f l = some ys ↔ List.Forall₂ (fun a b => f a = some b) l ys := by
  intro l
  induction l with
  | nil => intro ys; simp [optionMapM, List.forall₂_nil_left_iff, eq_comm]
  | cons a t ih =>
    intro ys
    cases hfa : f a with
    | none => simp [optionMapM, hfa, List.forall₂_cons_left_iff]
    | some b =>
      cases ht : optionMapM f t with
      | none =>
        simp only [optionMapM, hfa, ht, List.forall₂_cons_left_iff]
        constructor
        · intro hc; cases hc
        · rintro ⟨b', u', _, hu', rfl⟩
          rw [ih.mpr hu'] at ht; cases ht
      | some bs =>
        simp only [optionMapM, hfa, ht, Option.some.injEq,
          List.forall₂_cons_left_iff]
        constructor
        · rintro rfl
          exact ⟨b, bs, rfl, ih.mp ht, rfl⟩
        · rintro ⟨b', u', hb', hu', rfl⟩
          rw [ih.mpr hu'] at ht
          cases ht
          rw [hb']

theorem optionMapM_map_some {α β : Type} {f : α → Option β} {g : α → β} :
    ∀ {l : List α}, (∀ a ∈ l, f a = some (g a)) → optionMapM f l = some (l.map g) := by
  intro l
  induction l with
  | nil => intro _; simp [optionMapM]
  | cons a t ih =>
    intro h
    simp only [optionMapM, h a (List.mem_cons_self a t),
      ih (fun x hx => h x (List.mem_cons_of_mem a hx)), List.map_cons]

theorem optionMapM_eq_none {α β : Type} {f : α → Option β} :
    ∀ {l : List α}, optionMapM f l = none ↔ ∃ a ∈ l, f a = none := by
  intro l
  induction l with
  | nil => simp [optionMapM]
  | cons a t ih =>
    cases hfa : f a with
    | none => simp [optionMapM, hfa]
    | some b =>
      cases ht : optionMapM f t with
      | none => simp [optionMapM, hfa, ht, ih.mp ht]
      | some bs =>
        simp only [optionMapM, hfa, ht]
        constructor
        · intro hc; cases hc
        · rintro ⟨x, hx, hfx⟩
          rcases List.mem_cons.mp hx with rfl | hx
          · rw [hfx] at hfa; cases hfa
          · have : optionMapM f t = none := ih.mpr ⟨x, hx, hfx⟩
            rw [this] at ht; cases ht

theorem optionMapM_append {α β : Type} {f : α → Option β} :
    ∀ {l₁ l₂ : List α} {ys₁ ys₂ : List β},
      optionMapM f l₁ = some ys₁ → optionMapM f l₂ = some ys₂ →
      optionMapM f (l₁ ++ l₂) = some (ys₁ ++ ys₂) := by
  intro l₁
  induction l₁ with
  | nil =>
    intro l₂ ys₁ ys₂ h1 h2
    simp only [optionMapM] at h1
    cases h1
    simpa using h2
  | cons a t ih =>
    intro l₂ ys₁ ys₂ h1 h2
    simp only [optionMapM, List.cons_append] at h1 ⊢
    cases hfa : f a with
    | none => simp [hfa] at h1
    | some b =>
      simp only [hfa] at h1 ⊢
      cases ht : optionMapM f t with
      | none => simp [ht] at h1
      | some bs =>
        simp only [ht] at h1
        cases h1
        rw [List.append_eq, ih ht h2]
        simp

theorem optionMapM_range {β : Type} :
    ∀ (n : Nat) (F : Nat → Option β) (G : Nat → β),
      (∀ i, i < n → F i = some (G i)) →
      optionMapM F (List.range n) = some ((List.range n).map G) := by
  intro n
  induction n with
  | zero => intro F G _; simp [optionMapM]
  | succ m ih =>
    intro F G h
    rw [List.range_succ, List.map_append]
    exact optionMapM_append (ih F G (fun i hi => h i (Nat.lt_succ_of_lt hi)))
      (by simp [optionMapM, h m (Nat.lt_succ_self m)])

theorem range_map_getD {α β : Type} (l : List α) (d : α) (g : α → β) :
    (List.range l.length).map (fun i => g (l.getD i d)) = l.map g := by
  apply List.ext_getElem
  · simp
  · intro i h1 h2
    simp only [List.getElem_map, List.getElem_range]
    rw [List.getD_eq_getElem l d (by simpa using h2)]

theorem dictGet?_isSome_iff {K V : Type} [DecidableEq K] :
    ∀ {d : List (K × V)} {k : K}, (dictGet? d k).isSome ↔ k ∈ d.map Prod.fst := by
  intro d k
  induction d with
  | nil => simp [dictGet?]
  | cons kv t ih =>
    by_cases hk : kv.1 = k
    · simp [dictGet?, List.find?_cons, hk]
    · rw [show dictGet? (kv :: t) k = dictGet? t k by
        simp [dictGet?, List.find?_cons, hk]]
      simp only [List.map_cons, List.mem_cons]
      rw [ih]
      have : ¬ k = kv.1 := fun he => hk he.symm
      tauto

theorem dictGet?_of_mem_nodup {K V : Type} [DecidableEq K] :
    ∀ {d : List (K × V)} {kv : K × V},
      (d.map Prod.fst).Nodup → kv ∈ d → dictGet? d kv.1 = some kv.2 := by
  intro d
  induction d with
  | nil => intro kv _ h; cases h
  | cons hd t ih =>
    intro kv hnd hmem
    rcases List.mem_cons.mp hmem with hkv | hkv
    · rw [hkv]; simp [dictGet?, List.find?_cons]
    · have hk : kv.1 ≠ hd.1 := by
        intro he
        have : hd.1 ∈ t.map Prod.fst := by
          rw [← he]; exact List.mem_map_of_mem Prod.fst hkv
        exact (List.nodup_cons.mp (by simpa using hnd)).1 this
      have ht := ih (List.nodup_cons.mp (by simpa using hnd)).2 hkv
      simp only [dictGet?, List.find?_cons] at ht ⊢
      have hne : (decide (hd.1 = kv.1)) = false := by simp [Ne.symm hk]
      rw [hne]
      exact ht

/-! ### Claim theorems -/

/-- C9: for every non-empty container `c`, `c.map(identity).items()` yields
exactly the same sequence of slot-address/value pairs, in the same order, as
`c.items()`. -/
theorem C9_map_identity_items {T : Type} (c : Params T)
    (_h : c.args ≠ [] ∨ c.kwargs ≠ []) :
    (c.map (fun x => x)).items = c.items := by
  simp [Params.map, Params.items]

theorem C9_map_identity_items_witness :
    ((⟨[3], [("k", 4)]⟩ : Params Nat).args ≠ [] ∨
        (⟨[3], [("k", 4)]⟩ : Params Nat).kwargs ≠ []) ∧
      ((⟨[3], [("k", 4)]⟩ : Params Nat).map (fun x => x)).items =
        (⟨[3], [("k", 4)]⟩ : Params Nat).items :=
  ⟨Or.inl (by decide), C9_map_identity_items _ (Or.inl (by decide))⟩

/-- C8: `sample` returns the first positional value when one exists,
otherwise the first named value, and fails with the empty-container
(`StopIteration`) error when the container has no slots at all. -/
theorem C8_sample_cases {T : Type} (p : Params T) :
    (∀ a rest, p.args = a :: rest → p.sample = .ok a) ∧
    (p.args = [] → ∀ kv rest, p.kwargs = kv :: rest → p.sample = .ok kv.2) ∧
    (p.args = [] → p.kwargs = [] → p.sample = .error .stopIteration) := by
  refine ⟨?_, ?_, ?_⟩
  · intro a rest ha
    simp [Params.sample, ha]
  · intro ha kv rest hkv
    simp [Params.sample, ha, hkv]
  · intro ha hkv
    simp [Params.sample, ha, hkv]

theorem C8_sample_cases_witness :
    Params.sample (⟨[], [("x", 5)]⟩ : Params Nat) = .ok 5 :=
  (C8_sample_cases _).2.1 rfl ("x", 5) [] rfl

/-- C10: on the container with zero positional and zero named slots, every
round of the `Params.iter` generator yields the empty container again — the
lock-step loop never sees an exhausted iterator, so the iteration never
stops. -/
theorem C10_iter_empty_never_stops {γ : Type} (n : Nat) :
    Params.iter (⟨[], []⟩ : Params (List γ)) n = .yieldRow ⟨[], []⟩ := rfl

/-- C5 (failing input): a container with one positional slot holding a
one-element sequence yields its single lock-step row and then, instead of
stopping cleanly, the generator dies with `RuntimeError`: the positional
iterator's `StopIteration` is raised inside the `tuple(next(a) for a in ...)`
generator expression, which PEP 479 converts to `RuntimeError`, and the
`except StopIteration` handler does not catch it.  A clean stop happens only
when a named slot exhausts first (third conjunct). -/
theorem C5_iter_positional_exhaustion_error :
    Params.iter (⟨[[42]], []⟩ : Params (List Nat)) 0 = .yieldRow ⟨[42], []⟩ ∧
    Params.iter (⟨[[42]], []⟩ : Params (List Nat)) 1 = .error ∧
    Params.iter (⟨[], [("k", [42])]⟩ : Params (List Nat)) 1 = .stop := by
  decide

/-- C1 (failing input): the decode side recovers the container tag with
`content_type.strip("application/vnd.bentoml.")`, and Python `strip` removes
a character SET from both ends, not the prefix string; the tag `"triton"`
comes back as `"r"`, so encode-then-decode is not the identity. -/
theorem C1_roundtrip_mangles_container :
    multipart_to_payload_params
        (payload_params_to_multipart
          (⟨[⟨[1, 2], 7, "triton"⟩], []⟩ : Params (Payload Nat))) =
      .ok ⟨[⟨[1, 2], 7, "r"⟩], []⟩ ∧
    (⟨[⟨[1, 2], 7, "r"⟩], []⟩ : Params (Payload Nat)) ≠
      ⟨[⟨[1, 2], 7, "triton"⟩], []⟩ := by
  constructor
  · rfl
  · decide

/-- C2 (counterexample): on a one-element sequence whose container has zero
slots — slot addressing trivially shared, all per-slot index lists trivially
identical — the aggregation entry point does not succeed: `all_equal` on the
empty indices container raises `StopIteration`. -/
theorem C2_zero_slot_counterexample :
    payload_paramss_to_batch_params (fun _ => ((0 : Nat), ([1] : List Int)))
        [(⟨[], []⟩ : Params (Payload Nat))] =
      .error .stopIteration := rfl

/-- C6 (counterexample): aggregating the single container `Params(5)` with
the default `pass_through` aggregation function returns a container holding
the one-element TUPLE `(5,)`, not the value `5`: the result is not equal to
the input container. -/
theorem C6_default_agg_counterexample :
    aggDefault [(⟨[PyVal.int 5], []⟩ : Params PyVal)] =
        .ok ⟨[PyVal.tuple [PyVal.int 5]], []⟩ ∧
      (⟨[PyVal.tuple [PyVal.int 5]], []⟩ : Params PyVal) ≠
        ⟨[PyVal.int 5], []⟩ := by
  refine ⟨rfl, ?_⟩
  intro h
  simp at h

/-- A singleton list of containers yields singleton columns. -/
theorem argColumn_singleton {T : Type} (c : Params T) (i : Nat) (hi : i < c.args.length) :
    Params.argColumn [c] i = some [c.args.getD i (c.args.get ⟨i, hi⟩)] := by
  simp only [Params.argColumn, optionMapM]
  rw [List.getElem?_eq_getElem hi, List.getD_eq_getElem _ _ hi]

theorem kwColumn_singleton {T : Type} (c : Params T) {kv : String × T}
    (hnd : (c.kwargs.map Prod.fst).Nodup) (hmem : kv ∈ c.kwargs) :
    Params.kwColumn [c] kv.1 = some [kv.2] := by
  simp only [Params.kwColumn, optionMapM]
  rw [dictGet?_of_mem_nodup hnd hmem]

/-- C6 (amended): aggregating the one-element sequence `[c]` with the default
`pass_through` aggregation function returns a container with the same slot
addressing whose value at every slot is the one-element tuple wrapping `c`'s
value at that slot (not `c`'s value itself). -/
theorem C6_default_agg_wraps (c : Params PyVal)
    (hnd : (c.kwargs.map Prod.fst).Nodup) :
    aggDefault [c] =
      .ok ⟨c.args.map (fun v => PyVal.tuple [v]),
           c.kwargs.map (fun kv => (kv.1, PyVal.tuple [kv.2]))⟩ := by
  have hargs :
      optionMapM
          (fun i => (Params.argColumn [c] i).map
            (fun col => pass_through (PyVal.tuple col)))
          (List.range c.args.length) =
        some (c.args.map (fun v => PyVal.tuple [v])) := by
    rw [optionMapM_range c.args.length _
      (fun i => PyVal.tuple [c.args.getD i (PyVal.int 0)])
      (fun i hi => by
        have h1 : Params.argColumn [c] i = some [c.args.getD i (PyVal.int 0)] := by
          simp only [Params.argColumn, optionMapM]
          rw [List.getElem?_eq_getElem hi, List.getD_eq_getElem _ _ hi]
        rw [h1]
        rfl)]
    rw [range_map_getD c.args (PyVal.int 0) (fun v => PyVal.tuple [v])]
  have hkw :
      optionMapM
          (fun kv => (Params.kwColumn [c] kv.1).map
            (fun col => (kv.1, pass_through (PyVal.tuple col))))
          c.kwargs =
        some (c.kwargs.map (fun kv => (kv.1, PyVal.tuple [kv.2]))) :=
    optionMapM_map_some (fun kv hkv => by
      rw [kwColumn_singleton c hnd hkv]
      rfl)
  show Params.agg [c] (fun col => pass_through (PyVal.tuple col)) = _
  rw [Params.agg, hargs, hkw]

theorem C6_default_agg_wraps_witness :
    (((⟨[PyVal.int 5], [("k", PyVal.int 6)]⟩ : Params PyVal).kwargs.map
        Prod.fst).Nodup) ∧
      aggDefault [(⟨[PyVal.int 5], [("k", PyVal.int 6)]⟩ : Params PyVal)] =
        .ok ⟨[PyVal.tuple [PyVal.int 5]], [("k", PyVal.tuple [PyVal.int 6])]⟩ :=
  ⟨by decide, C6_default_agg_wraps _ (by decide)⟩

/-- An integer in `intKeys` is an integer key of the mapping. -/
theorem mem_keys_of_mem_intKeys {T : Type} {data : List (Params.PyKey × T)} {k : Int}
    (h : k ∈ Params.intKeys data) : Sum.inl k ∈ data.map Prod.fst := by
  simp only [Params.intKeys, List.mem_filterMap] at h
  obtain ⟨kv, hkv, hget⟩ := h
  cases hkey : kv.1 with
  | inl i =>
    rw [hkey] at hget
    have : i = k := by
      have : some i = some k := hget
      injection this
    rw [← this] at *
    exact List.mem_map.mpr ⟨kv, hkv, hkey⟩
  | inr s =>
    rw [hkey] at hget
    cases hget

/-- C7: `from_dict` builds a container whose positional sequence is exactly
the values of the integer keys taken in ascending key order (sparse integer
keys compact, without error and without gap-filling) and whose named slots
are exactly the string-keyed entries in order. -/
theorem C7_from_dict_sorted_compact {T : Type} (data : List (Params.PyKey × T))
    (_hnd : (data.map Prod.fst).Nodup) :
    ∃ p, Params.from_dict data = some p ∧
      p.kwargs = Params.strEntries data ∧
      p.args.length = (Params.intKeys data).length ∧
      ∃ ks : List Int, ks.Perm (Params.intKeys data) ∧
        List.Sorted (fun a b => a ≤ b) ks ∧
        optionMapM (fun k => Params.dictGetI? data k) ks = some p.args := by
  have hperm : (List.insertionSort (fun a b => a ≤ b) (Params.intKeys data)).Perm
      (Params.intKeys data) := List.perm_insertionSort _ _
  have hsorted : List.Sorted (fun a b => a ≤ b)
      (List.insertionSort (fun a b => a ≤ b) (Params.intKeys data)) :=
    List.sorted_insertionSort _ _
  have hsome : ∀ k ∈ List.insertionSort (fun a b => a ≤ b) (Params.intKeys data),
      (Params.dictGetI? data k).isSome := by
    intro k hk
    exact dictGet?_isSome_iff.mpr (mem_keys_of_mem_intKeys (hperm.mem_iff.mp hk))
  obtain ⟨args, hargs⟩ : ∃ args,
      optionMapM (fun k => Params.dictGetI? data k)
        (List.insertionSort (fun a b => a ≤ b) (Params.intKeys data)) = some args := by
    cases h : optionMapM (fun k => Params.dictGetI? data k)
        (List.insertionSort (fun a b => a ≤ b) (Params.intKeys data)) with
    | none =>
      obtain ⟨k, hk, hnone⟩ := optionMapM_eq_none.mp h
      have := hsome k hk
      rw [hnone] at this
      cases this
    | some a => exact ⟨a, rfl⟩
  refine ⟨⟨args, Params.strEntries data⟩, ?_, rfl, ?_, _, hperm, hsorted, hargs⟩
  · rw [Params.from_dict, hargs]
    rfl
  · have h1 := (optionMapM_eq_some.mp hargs).length_eq
    simpa [hperm.length_eq] using h1.symm

theorem C7_from_dict_sorted_compact_witness :
    ∃ p, Params.from_dict
        [(Sum.inl 5, "a"), (Sum.inr "k", "b"), (Sum.inl 2, "c")] = some p ∧
      p.kwargs = Params.strEntries
        [(Sum.inl 5, "a"), (Sum.inr "k", "b"), (Sum.inl 2, "c")] ∧
      p.args.length = (Params.intKeys
        [(Sum.inl 5, "a"), (Sum.inr "k", "b"), (Sum.inl 2, "c")]).length ∧
      ∃ ks : List Int, ks.Perm (Params.intKeys
          [(Sum.inl 5, "a"), (Sum.inr "k", "b"), (Sum.inl 2, "c")]) ∧
        List.Sorted (fun a b => a ≤ b) ks ∧
        optionMapM (fun k => Params.dictGetI?
            [(Sum.inl 5, "a"), (Sum.inr "k", "b"), (Sum.inl 2, "c")] k) ks =
          some p.args :=
  C7_from_dict_sorted_compact _ (by decide)

/-- Under shared slot addressing, `Params.agg` on a non-empty list succeeds,
with every slot's column defined. -/
theorem agg_cons_ok {T To : Type} (f : List T → To) (p0 : Params T) (ps : List (Params T))
    (hlen : ∀ p ∈ p0 :: ps, p.args.length = p0.args.length)
    (hkeys : ∀ p ∈ p0 :: ps, ∀ k ∈ p0.kwargs.map Prod.fst, k ∈ p.kwargs.map Prod.fst) :
    Params.agg (p0 :: ps) f =
      .ok ⟨(List.range p0.args.length).map
            (fun i => f ((Params.argColumn (p0 :: ps) i).getD [])),
          p0.kwargs.map
            (fun kv => (kv.1, f ((Params.kwColumn (p0 :: ps) kv.1).getD [])))⟩ ∧
    (∀ i, i < p0.args.length →
      Params.argColumn (p0 :: ps) i = some ((Params.argColumn (p0 :: ps) i).getD [])) ∧
    (∀ kv ∈ p0.kwargs,
      Params.kwColumn (p0 :: ps) kv.1 = some ((Params.kwColumn (p0 :: ps) kv.1).getD [])) := by
  have hargcol : ∀ i, i < p0.args.length →
      Params.argColumn (p0 :: ps) i = some ((Params.argColumn (p0 :: ps) i).getD []) := by
    intro i hi
    cases h : Params.argColumn (p0 :: ps) i with
    | none =>
      obtain ⟨p, hp, hnone⟩ := optionMapM_eq_none.mp h
      rw [List.getElem?_eq_none_iff] at hnone
      rw [hlen p hp] at hnone
      omega
    | some col => rfl
  have hkwcol : ∀ kv ∈ p0.kwargs,
      Params.kwColumn (p0 :: ps) kv.1 = some ((Params.kwColumn (p0 :: ps) kv.1).getD []) := by
    intro kv hkv
    cases h : Params.kwColumn (p0 :: ps) kv.1 with
    | none =>
      obtain ⟨p, hp, hnone⟩ := optionMapM_eq_none.mp h
      have hmem : kv.1 ∈ p.kwargs.map Prod.fst :=
        hkeys p hp kv.1 (List.mem_map_of_mem Prod.fst hkv)
      have := dictGet?_isSome_iff.mpr hmem
      rw [hnone] at this
      cases this
    | some col => rfl
  refine ⟨?_, hargcol, hkwcol⟩
  have hargs : optionMapM (fun i => (Params.argColumn (p0 :: ps) i).map f)
      (List.range p0.args.length) =
      some ((List.range p0.args.length).map
        (fun i => f ((Params.argColumn (p0 :: ps) i).getD []))) :=
    optionMapM_range _ _ _ (fun i hi => by rw [hargcol i hi]; rfl)
  have hkw : optionMapM
      (fun kv => (Params.kwColumn (p0 :: ps) kv.1).map (fun col => (kv.1, f col)))
      p0.kwargs =
      some (p0.kwargs.map
        (fun kv => (kv.1, f ((Params.kwColumn (p0 :: ps) kv.1).getD [])))) :=
    optionMapM_map_some (fun kv hkv => by rw [hkwcol kv hkv]; rfl)
  rw [Params.agg, hargs, hkw]

/-- C4: for containers sharing identical slot addressing, `agg` returns a
container with the first container's slot addressing whose value at each
slot is `f` applied to that slot's column (the ordered values across the
input containers, in input order); on the empty input it returns the empty
container. -/
theorem C4_agg_columns {T To : Type} (f : List T → To) (p0 : Params T)
    (ps : List (Params T))
    (hlen : ∀ p ∈ p0 :: ps, p.args.length = p0.args.length)
    (hkeys : ∀ p ∈ p0 :: ps, ∀ k ∈ p0.kwargs.map Prod.fst, k ∈ p.kwargs.map Prod.fst) :
    Params.agg ([] : List (Params T)) f = .ok ⟨[], []⟩ ∧
    ∃ q, Params.agg (p0 :: ps) f = .ok q ∧
      q.args.length = p0.args.length ∧
      q.kwargs.map Prod.fst = p0.kwargs.map Prod.fst ∧
      (∀ i (hq : i < q.args.length), ∃ col,
        Params.argColumn (p0 :: ps) i = some col ∧ q.args.get ⟨i, hq⟩ = f col) ∧
      (∀ j (hj : j < p0.kwargs.length) (hq : j < q.kwargs.length), ∃ col,
        Params.kwColumn (p0 :: ps) (p0.kwargs.get ⟨j, hj⟩).1 = some col ∧
        q.kwargs.get ⟨j, hq⟩ = ((p0.kwargs.get ⟨j, hj⟩).1, f col)) := by
  obtain ⟨hagg, hargcol, hkwcol⟩ := agg_cons_ok f p0 ps hlen hkeys
  refine ⟨rfl, _, hagg, by simp, by simp, ?_, ?_⟩
  · intro i hq
    simp only [List.length_map, List.length_range] at hq
    refine ⟨(Params.argColumn (p0 :: ps) i).getD [], hargcol i hq, ?_⟩
    simp [List.get_eq_getElem]
  · intro j hj hq
    simp only [List.length_map] at hq
    refine ⟨(Params.kwColumn (p0 :: ps) (p0.kwargs.get ⟨j, hj⟩).1).getD [],
      hkwcol _ (List.get_mem p0.kwargs j hj), ?_⟩
    simp [List.get_eq_getElem]

theorem C4_agg_columns_witness :
    Params.agg ([] : List (Params Nat)) (fun col => col.sum) = .ok ⟨[], []⟩ ∧
    ∃ q, Params.agg
        [(⟨[10, 20], [("x", 30)]⟩ : Params Nat), ⟨[1, 2], [("x", 3)]⟩]
        (fun col => col.sum) = .ok q ∧
      q.args.length = (⟨[10, 20], [("x", 30)]⟩ : Params Nat).args.length ∧
      q.kwargs.map Prod.fst =
        (⟨[10, 20], [("x", 30)]⟩ : Params Nat).kwargs.map Prod.fst ∧
      (∀ i (hq : i < q.args.length), ∃ col,
        Params.argColumn
            [(⟨[10, 20], [("x", 30)]⟩ : Params Nat), ⟨[1, 2], [("x", 3)]⟩] i =
          some col ∧ q.args.get ⟨i, hq⟩ = col.sum) ∧
      (∀ j (hj : j < (⟨[10, 20], [("x", 30)]⟩ : Params Nat).kwargs.length)
          (hq : j < q.kwargs.length), ∃ col,
        Params.kwColumn
            [(⟨[10, 20], [("x", 30)]⟩ : Params Nat), ⟨[1, 2], [("x", 3)]⟩]
            (((⟨[10, 20], [("x", 30)]⟩ : Params Nat).kwargs.get ⟨j, hj⟩).1) =
          some col ∧
        q.kwargs.get ⟨j, hq⟩ =
          (((⟨[10, 20], [("x", 30)]⟩ : Params Nat).kwargs.get ⟨j, hj⟩).1, col.sum)) :=
  C4_agg_columns (fun col => col.sum) _ _ (by decide) (by decide)

theorem optionMapM_map {α β γ : Type} (g : α → β) (f : β → Option γ) :
    ∀ (l : List α), optionMapM f (l.map g) = optionMapM (fun a => f (g a)) l := by
  intro l
  induction l with
  | nil => rfl
  | cons a t ih => simp only [List.map_cons, optionMapM, ih]

theorem all_map' {α β : Type} (f : α → β) (p : β → Bool) :
    ∀ (l : List α), (l.map f).all p = l.all (fun a => p (f a)) := by
  intro l
  induction l with
  | nil => rfl
  | cons a t ih => simp only [List.map_cons, List.all_cons, ih]

/-- The values of `items`, in iteration order: the positional values then the
named values. -/
theorem items_map_snd {T : Type} (p : Params T) :
    p.items.map Prod.snd = p.args ++ p.kwargs.map Prod.snd := by
  simp only [Params.items, List.map_append, List.map_map]
  congr 1
  exact (by
    rw [show (Prod.snd ∘ fun iv : Nat × T => ((Sum.inl iv.1 : Nat ⊕ String), iv.2)) =
        Prod.snd from rfl, List.enum_map_snd])

/-- `all_equal` compares exactly the ordered value sequence of the container:
positional values first, then named values. -/
theorem all_equal_eq_values {T : Type} [DecidableEq T] (p : Params T) :
    p.all_equal = match p.args ++ p.kwargs.map Prod.snd with
      | [] => .error .stopIteration
      | v0 :: rest => .ok (rest.all (fun v => v = v0)) := by
  have hsnd := items_map_snd p
  cases hit : p.items with
  | nil =>
    rw [hit] at hsnd
    rw [Params.all_equal, hit, ← hsnd]
    rfl
  | cons kv rest =>
    obtain ⟨a, v⟩ := kv
    rw [hit] at hsnd
    rw [Params.all_equal, hit, ← hsnd]
    simp only [List.map_cons]
    rw [all_map' Prod.snd (fun x => x = v) rest]

/-- `sample` returns the head of the ordered value sequence. -/
theorem sample_eq_head {T : Type} (p : Params T) (v0 : T) (rest : List T)
    (h : p.args ++ p.kwargs.map Prod.snd = v0 :: rest) : p.sample = .ok v0 := by
  cases ha : p.args with
  | cons a t =>
    rw [ha, List.cons_append] at h
    injection h with h1 _
    simp only [Params.sample, ha, h1]
  | nil =>
    rw [ha, List.nil_append] at h
    cases hk : p.kwargs with
    | nil => rw [hk] at h; cases h
    | cons kv kt =>
      rw [hk, List.map_cons] at h
      injection h with h1 _
      simp only [Params.sample, ha, hk, h1]

/-- C2 (amended): for a non-empty sequence of containers sharing identical
slot addressing and at least one slot, the aggregation entry point succeeds
with the representative index list equal to every slot's (identical) index
list whenever the per-slot index lists agree, and raises the
invalid-argument error whenever some slot's index list differs from the
first slot's.  The per-slot index lists, in slot order, are `(f col).2` for
each slot column; the hypothesis names them `il₀ :: ilrest`. -/
theorem C2_batch_params_validation {μ β : Type} [DecidableEq β]
    (f : List (Payload μ) → β × List Int)
    (p0 : Params (Payload μ)) (ps : List (Params (Payload μ)))
    (hlen : ∀ p ∈ p0 :: ps, p.args.length = p0.args.length)
    (hkeys : ∀ p ∈ p0 :: ps, ∀ k ∈ p0.kwargs.map Prod.fst, k ∈ p.kwargs.map Prod.fst)
    (il₀ : List Int) (ilrest : List (List Int))
    (hvals : (List.range p0.args.length).map
          (fun i => (f ((Params.argColumn (p0 :: ps) i).getD [])).2)
        ++ p0.kwargs.map
          (fun kv => (f ((Params.kwColumn (p0 :: ps) kv.1).getD [])).2)
      = il₀ :: ilrest) :
    ((∀ il ∈ ilrest, il = il₀) →
      payload_paramss_to_batch_params f (p0 :: ps) =
        .ok (⟨(List.range p0.args.length).map
              (fun i => Sum.inl (f ((Params.argColumn (p0 :: ps) i).getD [])).1),
            p0.kwargs.map
              (fun kv => (kv.1,
                Sum.inl (f ((Params.kwColumn (p0 :: ps) kv.1).getD [])).1))⟩,
          Sum.inr il₀)) ∧
    ((∃ il ∈ ilrest, il ≠ il₀) →
      payload_paramss_to_batch_params f (p0 :: ps) = .error .invalidArgument) := by
  obtain ⟨hagg, -, -⟩ := agg_cons_ok
    (fun col => [Sum.inl (f col).1, Sum.inr (f col).2]) p0 ps hlen hkeys
  have h0a : optionMapM (fun l => l[0]?)
      ((List.range p0.args.length).map
        (fun i => [Sum.inl (f ((Params.argColumn (p0 :: ps) i).getD [])).1,
          Sum.inr (f ((Params.argColumn (p0 :: ps) i).getD [])).2])) =
      some ((List.range p0.args.length).map
        (fun i => Sum.inl (f ((Params.argColumn (p0 :: ps) i).getD [])).1)) := by
    rw [optionMapM_map]
    exact optionMapM_map_some (fun i _ => rfl)
  have h0k : optionMapM (fun kv => (kv.2[0]?).map (fun v => (kv.1, v)))
      (p0.kwargs.map
        (fun kv => (kv.1, [Sum.inl (f ((Params.kwColumn (p0 :: ps) kv.1).getD [])).1,
          Sum.inr (f ((Params.kwColumn (p0 :: ps) kv.1).getD [])).2]))) =
      some (p0.kwargs.map
        (fun kv => (kv.1,
          Sum.inl (f ((Params.kwColumn (p0 :: ps) kv.1).getD [])).1))) := by
    rw [optionMapM_map]
    exact optionMapM_map_some (fun kv _ => rfl)
  have h1a : optionMapM (fun l => l[1]?)
      ((List.range p0.args.length).map
        (fun i => [Sum.inl (f ((Params.argColumn (p0 :: ps) i).getD [])).1,
          Sum.inr (f ((Params.argColumn (p0 :: ps) i).getD [])).2])) =
      some ((List.range p0.args.length).map
        (fun i => Sum.inr (f ((Params.argColumn (p0 :: ps) i).getD [])).2)) := by
    rw [optionMapM_map]
    exact optionMapM_map_some (fun i _ => rfl)
  have h1k : optionMapM (fun kv => (kv.2[1]?).map (fun v => (kv.1, v)))
      (p0.kwargs.map
        (fun kv => (kv.1, [Sum.inl (f ((Params.kwColumn (p0 :: ps) kv.1).getD [])).1,
          Sum.inr (f ((Params.kwColumn (p0 :: ps) kv.1).getD [])).2]))) =
      some (p0.kwargs.map
        (fun kv => (kv.1,
          Sum.inr (f ((Params.kwColumn (p0 :: ps) kv.1).getD [])).2))) := by
    rw [optionMapM_map]
    exact optionMapM_map_some (fun kv _ => rfl)
  have hval2 : (List.range p0.args.length).map
        (fun i => (Sum.inr (f ((Params.argColumn (p0 :: ps) i).getD [])).2 :
          β ⊕ List Int)) ++
      (p0.kwargs.map
        (fun kv => (kv.1,
          (Sum.inr (f ((Params.kwColumn (p0 :: ps) kv.1).getD [])).2 :
            β ⊕ List Int)))).map Prod.snd =
      Sum.inr il₀ :: ilrest.map Sum.inr := by
    have hm : (List.range p0.args.length).map
          (fun i => (Sum.inr (f ((Params.argColumn (p0 :: ps) i).getD [])).2 :
            β ⊕ List Int)) ++
        (p0.kwargs.map
          (fun kv => (kv.1,
            (Sum.inr (f ((Params.kwColumn (p0 :: ps) kv.1).getD [])).2 :
              β ⊕ List Int)))).map Prod.snd =
        ((List.range p0.args.length).map
            (fun i => (f ((Params.argColumn (p0 :: ps) i).getD [])).2)
          ++ p0.kwargs.map
            (fun kv => (f ((Params.kwColumn (p0 :: ps) kv.1).getD [])).2)).map
          Sum.inr := by
      simp only [List.map_append, List.map_map]
      rfl
    rw [hm, hvals, List.map_cons]
  constructor
  · intro heq
    have hall : ((ilrest.map Sum.inr).all
        (fun v => v = (Sum.inr il₀ : β ⊕ List Int))) = true := by
      rw [List.all_eq_true]
      intro x hx
      obtain ⟨il, hil, rfl⟩ := List.mem_map.mp hx
      simp [heq il hil]
    have hsmp : Params.sample
        (⟨(List.range p0.args.length).map
          (fun i => (Sum.inr (f ((Params.argColumn (p0 :: ps) i).getD [])).2 :
            β ⊕ List Int)),
        p0.kwargs.map
          (fun kv => (kv.1,
            (Sum.inr (f ((Params.kwColumn (p0 :: ps) kv.1).getD [])).2 :
              β ⊕ List Int)))⟩ : Params (β ⊕ List Int)) =
        .ok (Sum.inr il₀) :=
      sample_eq_head _ _ _ hval2
    simp only [payload_paramss_to_batch_params, hagg, Params.genNext, Params.iter,
      h0a, h0k, h1a, h1k, all_equal_eq_values, hval2, hall, hsmp]
  · rintro ⟨il, hil, hne⟩
    have hall : ((ilrest.map Sum.inr).all
        (fun v => v = (Sum.inr il₀ : β ⊕ List Int))) = false := by
      rw [List.all_eq_false]
      refine ⟨Sum.inr il, List.mem_map_of_mem Sum.inr hil, ?_⟩
      simp [hne]
    simp only [payload_paramss_to_batch_params, hagg, Params.genNext, Params.iter,
      h0a, h0k, h1a, h1k, all_equal_eq_values, hval2, hall]

theorem C2_batch_params_validation_witness :
    payload_paramss_to_batch_params
        (fun col => (col.length, ([1, 1] : List Int)))
        [(⟨[⟨[1], 0, "X"⟩], [("x", ⟨[2], 0, "X"⟩)]⟩ : Params (Payload Nat)),
          ⟨[⟨[3], 0, "X"⟩], [("x", ⟨[4], 0, "X"⟩)]⟩] =
      .ok (⟨[Sum.inl 2], [("x", Sum.inl 2)]⟩, Sum.inr [1, 1]) := by
  have h := C2_batch_params_validation
    (fun col => (col.length, ([1, 1] : List Int)))
    (⟨[⟨[1], 0, "X"⟩], [("x", ⟨[2], 0, "X"⟩)]⟩ : Params (Payload Nat))
    [⟨[⟨[3], 0, "X"⟩], [("x", ⟨[4], 0, "X"⟩)]⟩]
    (by decide) (by decide) [1, 1] [[1, 1]] (by decide)
  exact h.1 (by decide)

theorem dictGet?_dictSet_self {K V : Type} [DecidableEq K] :
    ∀ (d : List (K × V)) (k : K) (v : V), dictGet? (dictSet d k v) k = some v := by
  intro d
  induction d with
  | nil => intro k v; simp [dictSet, dictGet?, List.find?_cons]
  | cons hd t ih =>
    intro k v
    by_cases h : hd.1 = k
    · have hany : (hd :: t).any (fun kv => kv.1 = k) = true := by
        simp [List.any_cons, h]
      simp only [dictSet, hany, if_true, List.map_cons, if_pos h]
      simp [dictGet?, List.find?_cons]
    · by_cases ht : t.any (fun kv => kv.1 = k)
      · have hany : (hd :: t).any (fun kv => kv.1 = k) = true := by
          simp [List.any_cons, ht]
        have htset : dictSet t k v = t.map (fun kv => if kv.1 = k then (k, v) else kv) := by
          simp [dictSet, ht]
        simp only [dictSet, hany, if_true, List.map_cons, if_neg h]
        have := ih k v
        rw [htset] at this
        simp only [dictGet?, List.find?_cons] at this ⊢
        have hne : (decide (hd.1 = k)) = false := by simp [h]
        rw [hne]
        exact this
      · have ht' : t.any (fun kv => kv.1 = k) = false := Bool.eq_false_iff.mpr ht
        have hany : (hd :: t).any (fun kv => kv.1 = k) = false := by
          rw [List.any_cons, Bool.or_eq_false_iff]
          exact ⟨by simp [h], ht'⟩
        have htset : dictSet t k v = t ++ [(k, v)] := by
          simp [dictSet, ht]
        simp only [dictSet, hany, Bool.false_eq_true, if_false, List.cons_append]
        have := ih k v
        rw [htset] at this
        simp only [dictGet?, List.find?_cons] at this ⊢
        have hne : (decide (hd.1 = k)) = false := by simp [h]
        rw [hne]
        exact this

theorem dictGet?_dictSet_ne {K V : Type} [DecidableEq K] :
    ∀ (d : List (K × V)) (k k' : K) (v : V), k' ≠ k →
      dictGet? (dictSet d k v) k' = dictGet? d k' := by
  intro d
  induction d with
  | nil =>
    intro k k' v hne
    simp [dictSet, dictGet?, List.find?_cons, Ne.symm hne]
  | cons hd t ih =>
    intro k k' v hne
    by_cases hany : (hd :: t).any (fun kv => kv.1 = k)
    · simp only [dictSet, hany, if_true, List.map_cons]
      by_cases h : hd.1 = k
      · simp only [if_pos h, dictGet?, List.find?_cons]
        have h1 : (decide (k = k')) = false := by simp [Ne.symm hne]
        have h2 : (decide (hd.1 = k')) = false := by
          rw [h]; simp [Ne.symm hne]
        rw [h1, h2]
        by_cases ht : t.any (fun kv => kv.1 = k)
        · have := ih k k' v hne
          have htset : dictSet t k v =
              t.map (fun kv => if kv.1 = k then (k, v) else kv) := by
            simp [dictSet, ht]
          rw [htset] at this
          simpa [dictGet?] using this
        · have heq : t.map (fun kv => if kv.1 = k then (k, v) else kv) = t := by
            have hpt : ∀ kv ∈ t, (if kv.1 = k then (k, v) else kv) = id kv := by
              intro kv hkv
              have hc : ¬ kv.1 = k := by
                intro hc
                exact ht (List.any_eq_true.mpr ⟨kv, hkv, by simp [hc]⟩)
              simp [hc]
            rw [List.map_congr_left hpt, List.map_id]
          rw [heq]
      · simp only [if_neg h, dictGet?, List.find?_cons]
        by_cases hh : hd.1 = k'
        · simp [hh]
        · have h2 : (decide (hd.1 = k')) = false := by simp [hh]
          rw [h2]
          have ht : t.any (fun kv => kv.1 = k) = true := by
            rcases (by simpa using hany : ∃ kv ∈ hd :: t, kv.1 = k) with ⟨kv, hkv, hk⟩
            rcases List.mem_cons.mp hkv with rfl | hkv
            · exact absurd hk h
            · exact List.any_eq_true.mpr ⟨kv, hkv, by simp [hk]⟩
          have := ih k k' v hne
          have htset : dictSet t k v =
              t.map (fun kv => if kv.1 = k then (k, v) else kv) := by
            simp [dictSet, ht]
          rw [htset] at this
          simpa [dictGet?] using this
    · simp only [dictSet, hany, Bool.false_eq_true, if_false, List.cons_append]
      simp only [dictGet?, List.find?_cons]
      by_cases hh : hd.1 = k'
      · simp [hh]
      · have h2 : (decide (hd.1 = k')) = false := by simp [hh]
        rw [h2]
        have ht : t.any (fun kv => kv.1 = k) = false := by
          have := (by simpa using hany :
            ¬ ∃ kv ∈ hd :: t, kv.1 = k)
          simp only [List.any_eq_false]
          intro kv hkv
          simp only [decide_eq_true_eq]
          intro hc
          exact this ⟨kv, List.mem_cons_of_mem hd hkv, hc⟩
        have := ih k k' v hne
        have htset : dictSet t k v = t ++ [(k, v)] := by
          simp [dictSet, ht]
        rw [htset] at this
        simpa [dictGet?] using this

theorem mem_dictSet {K V : Type} [DecidableEq K] {d : List (K × V)} {k : K}
    {v : V} {kv : K × V} (h : kv ∈ dictSet d k v) : kv = (k, v) ∨ kv ∈ d := by
  unfold dictSet at h
  by_cases hany : d.any (fun x => x.1 = k)
  · rw [if_pos hany] at h
    obtain ⟨kv₀, hkv₀, heq⟩ := List.mem_map.mp h
    by_cases hk : kv₀.1 = k
    · left; rw [← heq]; simp [hk]
    · right; rw [← heq]; simp only [hk, if_false]; simpa [hk] using hkv₀
  · rw [if_neg hany] at h
    rcases List.mem_append.mp h with h | h
    · right; exact h
    · left; simpa using h

theorem argsMap_fold_some {μ : Type} :
    ∀ (parts : List (WirePart μ)) (acc : List (Nat × Payload μ)) (i : Nat)
      (v : Payload μ),
      dictGet? (parts.foldl
        (fun m pt =>
          if pyIsDigit pt.name then dictSet m (digitsToNat pt.name) (payloadOfPart pt)
          else m) acc) i = some v →
      (∃ pt ∈ parts, pyIsDigit pt.name = true ∧ digitsToNat pt.name = i ∧
        payloadOfPart pt = v) ∨ dictGet? acc i = some v := by
  intro parts
  induction parts with
  | nil => intro acc i v h; right; exact h
  | cons pt rest ih =>
    intro acc i v h
    rw [List.foldl_cons] at h
    rcases ih _ i v h with ⟨pt', hmem, hd', hi', hv'⟩ | hacc
    · exact Or.inl ⟨pt', List.mem_cons_of_mem pt hmem, hd', hi', hv'⟩
    · by_cases hdig : pyIsDigit pt.name = true
      · rw [if_pos hdig] at hacc
        by_cases hi : digitsToNat pt.name = i
        · left
          refine ⟨pt, List.mem_cons_self pt rest, hdig, hi, ?_⟩
          rw [← hi] at hacc
          rw [dictGet?_dictSet_self] at hacc
          exact Option.some.inj hacc
        · right
          rwa [dictGet?_dictSet_ne acc (digitsToNat pt.name) i (payloadOfPart pt)
            (fun he => hi he.symm)] at hacc
      · rw [if_neg hdig] at hacc
        exact Or.inr hacc

theorem argsMap_fold_isSome {μ : Type} :
    ∀ (parts : List (WirePart μ)) (acc : List (Nat × Payload μ)) (i : Nat),
      ((∃ pt ∈ parts, pyIsDigit pt.name = true ∧ digitsToNat pt.name = i) ∨
        (dictGet? acc i).isSome) →
      (dictGet? (parts.foldl
        (fun m pt =>
          if pyIsDigit pt.name then dictSet m (digitsToNat pt.name) (payloadOfPart pt)
          else m) acc) i).isSome := by
  intro parts
  induction parts with
  | nil =>
    intro acc i h
    rcases h with ⟨pt, hpt, -⟩ | h
    · cases hpt
    · exact h
  | cons pt rest ih =>
    intro acc i h
    rw [List.foldl_cons]
    apply ih
    rcases h with ⟨pt', hmem, hd', hi'⟩ | hsome
    · rcases List.mem_cons.mp hmem with rfl | hmem
      · right
        rw [if_pos hd', ← hi', dictGet?_dictSet_self]
        rfl
      · exact Or.inl ⟨pt', hmem, hd', hi'⟩
    · right
      by_cases hdig : pyIsDigit pt.name = true
      · rw [if_pos hdig]
        by_cases hi : i = digitsToNat pt.name
        · rw [hi, dictGet?_dictSet_self]; rfl
        · rwa [dictGet?_dictSet_ne _ _ _ _ hi]
      · rwa [if_neg hdig]

theorem kwargs_fold_mem {μ : Type} :
    ∀ (parts : List (WirePart μ)) (acc : List (String × Payload μ))
      (kv : String × Payload μ),
      kv ∈ parts.foldl
        (fun m pt =>
          if pyIsDigit pt.name then m else dictSet m pt.name (payloadOfPart pt))
        acc →
      (∃ pt ∈ parts, pyIsDigit pt.name = false ∧ pt.name = kv.1 ∧
        payloadOfPart pt = kv.2) ∨ kv ∈ acc := by
  intro parts
  induction parts with
  | nil => intro acc kv h; right; exact h
  | cons pt rest ih =>
    intro acc kv h
    rw [List.foldl_cons] at h
    rcases ih _ kv h with ⟨pt', hmem, hd', hn', hv'⟩ | hacc
    · exact Or.inl ⟨pt', List.mem_cons_of_mem pt hmem, hd', hn', hv'⟩
    · by_cases hdig : pyIsDigit pt.name = true
      · rw [if_pos hdig] at hacc
        exact Or.inr hacc
      · rw [if_neg hdig] at hacc
        rcases mem_dictSet hacc with heq | hacc
        · left
          refine ⟨pt, List.mem_cons_self pt rest,
            Bool.eq_false_iff.mpr hdig, ?_, ?_⟩
          · rw [heq]
          · rw [heq]
        · exact Or.inr hacc

theorem kwargs_fold_isSome {μ : Type} :
    ∀ (parts : List (WirePart μ)) (acc : List (String × Payload μ)) (k : String),
      ((∃ pt ∈ parts, pyIsDigit pt.name = false ∧ pt.name = k) ∨
        (dictGet? acc k).isSome) →
      (dictGet? (parts.foldl
        (fun m pt =>
          if pyIsDigit pt.name then m else dictSet m pt.name (payloadOfPart pt))
        acc) k).isSome := by
  intro parts
  induction parts with
  | nil =>
    intro acc k h
    rcases h with ⟨pt, hpt, -⟩ | h
    · cases hpt
    · exact h
  | cons pt rest ih =>
    intro acc k h
    rw [List.foldl_cons]
    apply ih
    rcases h with ⟨pt', hmem, hd', hn'⟩ | hsome
    · rcases List.mem_cons.mp hmem with rfl | hmem
      · right
        rw [if_neg (by simp [hd']), ← hn', dictGet?_dictSet_self]
        rfl
      · exact Or.inl ⟨pt', hmem, hd', hn'⟩
    · right
      by_cases hdig : pyIsDigit pt.name = true
      · rwa [if_pos hdig]
      · rw [if_neg hdig]
        by_cases hk : k = pt.name
        · rw [hk, dictGet?_dictSet_self]; rfl
        · rwa [dictGet?_dictSet_ne _ _ _ _ hk]

theorem maxFold_le_of_le {μ : Type} :
    ∀ (parts : List (WirePart μ)) (acc : Int),
      acc ≤ parts.foldl
        (fun mx pt =>
          if pyIsDigit pt.name then max mx ((digitsToNat pt.name : Int)) else mx)
        acc := by
  intro parts
  induction parts with
  | nil => intro acc; exact le_refl acc
  | cons pt rest ih =>
    intro acc
    rw [List.foldl_cons]
    refine le_trans ?_ (ih _)
    by_cases hdig : pyIsDigit pt.name = true
    · rw [if_pos hdig]; exact le_max_left _ _
    · rw [if_neg hdig]

theorem maxFold_ge_elem {μ : Type} :
    ∀ (parts : List (WirePart μ)) (acc : Int), ∀ pt ∈ parts,
      pyIsDigit pt.name = true →
      ((digitsToNat pt.name : Int)) ≤ parts.foldl
        (fun mx pt =>
          if pyIsDigit pt.name then max mx ((digitsToNat pt.name : Int)) else mx)
        acc := by
  intro parts
  induction parts with
  | nil => intro acc pt hpt; cases hpt
  | cons pt0 rest ih =>
    intro acc pt hpt hdig
    rw [List.foldl_cons]
    rcases List.mem_cons.mp hpt with rfl | hmem
    · refine le_trans ?_ (maxFold_le_of_le rest _)
      rw [if_pos hdig]
      exact le_max_right _ _
    · exact ih _ pt hmem hdig

/-- C3: once a decoded message has at least one all-digit-named part, the
maximum index is defined, and decoding reconstructs the positional sequence
as indices `0 .. maxIndex` in index order, each slot holding the payload of
a part with that digit name; non-digit parts become named slots (every named
slot comes from a non-digit part of that name, and every non-digit part name
appears among the named slots).  Decoding fails, with the `KeyError` lookup
error, exactly when some index in `0 .. maxIndex` has no part. -/
theorem C3_decode_contiguous_or_missing {μ : Type} (parts : List (WirePart μ))
    (hd : ∃ pt ∈ parts, pyIsDigit pt.name = true) :
    0 ≤ maxArgIndex parts ∧
    ((∀ i : Nat, (i : Int) ≤ maxArgIndex parts →
        ∃ pt ∈ parts, pyIsDigit pt.name = true ∧ digitsToNat pt.name = i) →
      ∃ q, multipart_to_payload_params parts = .ok q ∧
        q.args.length = (maxArgIndex parts + 1).toNat ∧
        (∀ i (hq : i < q.args.length), ∃ pt ∈ parts,
          pyIsDigit pt.name = true ∧ digitsToNat pt.name = i ∧
          payloadOfPart pt = q.args.get ⟨i, hq⟩) ∧
        (∀ kv ∈ q.kwargs, ∃ pt ∈ parts,
          pyIsDigit pt.name = false ∧ pt.name = kv.1 ∧ payloadOfPart pt = kv.2) ∧
        (∀ pt ∈ parts, pyIsDigit pt.name = false →
          pt.name ∈ q.kwargs.map Prod.fst)) ∧
    ((∃ i : Nat, (i : Int) ≤ maxArgIndex parts ∧
        ∀ pt ∈ parts, ¬(pyIsDigit pt.name = true ∧ digitsToNat pt.name = i)) →
      multipart_to_payload_params parts = .error .keyError) := by
  obtain ⟨pt₀, hpt₀, hdig₀⟩ := hd
  have hge := maxFold_ge_elem parts (-1) pt₀ hpt₀ hdig₀
  have hm0 : 0 ≤ maxArgIndex parts := by
    have h0 : (0 : Int) ≤ ((digitsToNat pt₀.name : Int)) := by positivity
    exact le_trans h0 hge
  refine ⟨hm0, ?_, ?_⟩
  · intro hpres
    have hsome : ∀ i ∈ List.range (maxArgIndex parts + 1).toNat,
        (dictGet? (argsMapOf parts) i).isSome := by
      intro i hi
      rw [List.mem_range] at hi
      have hle : (i : Int) ≤ maxArgIndex parts := by omega
      exact argsMap_fold_isSome parts [] i (Or.inl (hpres i hle))
    obtain ⟨args, hargs⟩ : ∃ args,
        optionMapM (fun i => dictGet? (argsMapOf parts) i)
          (List.range (maxArgIndex parts + 1).toNat) = some args := by
      cases h : optionMapM (fun i => dictGet? (argsMapOf parts) i)
          (List.range (maxArgIndex parts + 1).toNat) with
      | none =>
        obtain ⟨i, hi, hnone⟩ := optionMapM_eq_none.mp h
        have := hsome i hi
        rw [hnone] at this
        cases this
      | some a => exact ⟨a, rfl⟩
    have hfa := optionMapM_eq_some.mp hargs
    have hlen := hfa.length_eq
    rw [List.length_range] at hlen
    refine ⟨⟨args, kwargsOf parts⟩, ?_, hlen.symm, ?_, ?_, ?_⟩
    · simp only [multipart_to_payload_params, hargs]
    · intro i hq
      have hilt : i < (maxArgIndex parts + 1).toNat := by
        simp only at hq
        omega
      have h1 : i < (List.range (maxArgIndex parts + 1).toNat).length := by
        rw [List.length_range]
        exact hilt
      have hR := (List.forall₂_iff_get.mp hfa).2 i h1 (by simpa using hq)
      have hri : (List.range (maxArgIndex parts + 1).toNat).get ⟨i, h1⟩ = i := by
        simp [List.get_eq_getElem, List.getElem_range]
      rw [hri] at hR
      rcases argsMap_fold_some parts [] i _ hR with ⟨pt, hpt, hd', hi', hv'⟩ | hacc
      · exact ⟨pt, hpt, hd', hi', hv'⟩
      · simp [dictGet?] at hacc
    · intro kv hkv
      rcases kwargs_fold_mem parts [] kv hkv with ⟨pt, hpt, hd', hn', hv'⟩ | hacc
      · exact ⟨pt, hpt, hd', hn', hv'⟩
      · cases hacc
    · intro pt hpt hnd
      have := kwargs_fold_isSome parts [] pt.name (Or.inl ⟨pt, hpt, hnd, rfl⟩)
      exact dictGet?_isSome_iff.mp this
  · rintro ⟨i, hle, hno⟩
    have hlt : i < (maxArgIndex parts + 1).toNat := by omega
    have hnone : dictGet? (argsMapOf parts) i = none := by
      cases h : dictGet? (argsMapOf parts) i with
      | none => rfl
      | some v =>
        rcases argsMap_fold_some parts [] i v h with ⟨pt, hpt, hd', hi', -⟩ | hacc
        · exact absurd ⟨hd', hi'⟩ (hno pt hpt)
        · simp [dictGet?] at hacc
    have hmm : optionMapM (fun i => dictGet? (argsMapOf parts) i)
        (List.range (maxArgIndex parts + 1).toNat) = none :=
      optionMapM_eq_none.mpr ⟨i, List.mem_range.mpr hlt, hnone⟩
    simp only [multipart_to_payload_params, hmm]

theorem C3_decode_contiguous_or_missing_witness :
    0 ≤ maxArgIndex
        [(⟨"0", [1], 0, "ct"⟩ : WirePart Nat), ⟨"2", [2], 0, "ct"⟩] ∧
    ((∀ i : Nat, (i : Int) ≤ maxArgIndex
          [(⟨"0", [1], 0, "ct"⟩ : WirePart Nat), ⟨"2", [2], 0, "ct"⟩] →
        ∃ pt ∈ [(⟨"0", [1], 0, "ct"⟩ : WirePart Nat), ⟨"2", [2], 0, "ct"⟩],
          pyIsDigit pt.name = true ∧ digitsToNat pt.name = i) →
      ∃ q, multipart_to_payload_params
          [(⟨"0", [1], 0, "ct"⟩ : WirePart Nat), ⟨"2", [2], 0, "ct"⟩] = .ok q ∧
        q.args.length = (maxArgIndex
          [(⟨"0", [1], 0, "ct"⟩ : WirePart Nat), ⟨"2", [2], 0, "ct"⟩] + 1).toNat ∧
        (∀ i (hq : i < q.args.length),
          ∃ pt ∈ [(⟨"0", [1], 0, "ct"⟩ : WirePart Nat), ⟨"2", [2], 0, "ct"⟩],
            pyIsDigit pt.name = true ∧ digitsToNat pt.name = i ∧
            payloadOfPart pt = q.args.get ⟨i, hq⟩) ∧
        (∀ kv ∈ q.kwargs,
          ∃ pt ∈ [(⟨"0", [1], 0, "ct"⟩ : WirePart Nat), ⟨"2", [2], 0, "ct"⟩],
            pyIsDigit pt.name = false ∧ pt.name = kv.1 ∧ payloadOfPart pt = kv.2) ∧
        (∀ pt ∈ [(⟨"0", [1], 0, "ct"⟩ : WirePart Nat), ⟨"2", [2], 0, "ct"⟩],
          pyIsDigit pt.name = false → pt.name ∈ q.kwargs.map Prod.fst)) ∧
    ((∃ i : Nat, (i : Int) ≤ maxArgIndex
          [(⟨"0", [1], 0, "ct"⟩ : WirePart Nat), ⟨"2", [2], 0, "ct"⟩] ∧
        ∀ pt ∈ [(⟨"0", [1], 0, "ct"⟩ : WirePart Nat), ⟨"2", [2], 0, "ct"⟩],
          ¬(pyIsDigit pt.name = true ∧ digitsToNat pt.name = i)) →
      multipart_to_payload_params
          [(⟨"0", [1], 0, "ct"⟩ : WirePart Nat), ⟨"2", [2], 0, "ct"⟩] =
        .error .keyError) :=
  C3_decode_contiguous_or_missing
    [(⟨"0", [1], 0, "ct"⟩ : WirePart Nat), ⟨"2", [2], 0, "ct"⟩]
    ⟨⟨"0", [1], 0, "ct"⟩, by decide, by decide⟩
